import Mathlib

/-
Shallow embedding of the numeric core of the timeseries-correlation
Grafana plugin (src/utils/correlation.ts): `slidingCorrelation`,
`smoothSeries`, `performLinearRegression` and `computeCointegrationZScore`.

JavaScript `number` values are idealised as follows: where the code never
tests finiteness (`slidingCorrelation`), a series is a `List ℝ`; where the
code branches on `Number.isFinite` (`smoothSeries`, the cointegration
path), a value is a `JSNum` - a finite real or one of the three non-finite
IEEE values - and finite-value arithmetic is exact real arithmetic.
`null` is `Option.none`.  `Math.sqrt` is `Real.sqrt`.
-/

namespace TSCorr

open Classical

/-- A JavaScript number: a finite real value, or one of the non-finite
IEEE values NaN, Infinity, -Infinity. -/
inductive JSNum where
  | fin (x : ℝ)
  | nan
  | posInf
  | negInf

/-- From the source: `Number.isFinite` wrapped by `isFiniteNumber`. -/
def JSNum.isFiniteNumber : JSNum → Bool
  | .fin _ => true
  | _ => false

/-- The body of `slidingCorrelation`'s loop for one index `i ≥ safeWindow`,
as a function of the two window slices (`sliceA`, `sliceB`) and
`safeWindow`: means, covariance (the source walks `sliceA` with an index
into `sliceB`, i.e. the pointwise products of the two slices, here the
zip), population standard deviations, the zero-variance guard, and the
quotient. -/
noncomputable def windowCorr (sliceA sliceB : List ℝ) (safeWindow : ℕ) : Option ℝ :=
  let meanA := sliceA.sum / (safeWindow : ℝ)
  let meanB := sliceB.sum / (safeWindow : ℝ)
  let cov := ((sliceA.zip sliceB).map (fun p => (p.1 - meanA) * (p.2 - meanB))).sum / (safeWindow : ℝ)
  let stdA := Real.sqrt ((sliceA.map (fun aVal => (aVal - meanA) ^ 2)).sum / (safeWindow : ℝ))
  let stdB := Real.sqrt ((sliceB.map (fun bVal => (bVal - meanB) ^ 2)).sum / (safeWindow : ℝ))
  if stdA = 0 ∨ stdB = 0 then none
  else some (cov / (stdA * stdB))

/-- From the source: `Math.max(Math.floor(window), 1)`. -/
noncomputable def effectiveWindow (window : ℝ) : ℕ := (max ⌊window⌋ 1).toNat

/-- From the source: `slidingCorrelation`.  `seriesX.slice(i - safeWindow, i)`
is `(seriesX.drop (i - safeWindow)).take safeWindow` (in the branch
`safeWindow ≤ i`, so `i - (i - safeWindow) = safeWindow`). -/
noncomputable def slidingCorrelation (seriesA seriesB : List ℝ) (window : ℝ) :
    List (Option ℝ) :=
  let safeWindow := effectiveWindow window
  let length := min seriesA.length seriesB.length
  (List.range length).map (fun i =>
    if i < safeWindow then none
    else windowCorr ((seriesA.drop (i - safeWindow)).take safeWindow)
                    ((seriesB.drop (i - safeWindow)).take safeWindow) safeWindow)

/-- The neighbour lookup inside `smoothSeries`'s inner loop: index `n` (an
integer, possibly negative), skipped (`none`) when out of bounds, `null`,
or not finite; otherwise the finite value. -/
def finiteAt (values : List (Option JSNum)) (n : ℤ) : Option ℝ :=
  if 0 ≤ n then
    match values[n.toNat]? with
    | some (some (JSNum.fin x)) => some x
    | _ => none
  else none

/-- From the source: `smoothSeries`.  The offset loop
`for (offset = -windowRadius; offset <= windowRadius; offset++)` is the
range `0 ≤ o < 2*windowRadius + 1` with `offset = o - windowRadius`. -/
noncomputable def smoothSeries (values : List (Option JSNum)) (radius : ℝ) :
    List (Option JSNum) :=
  let windowRadius := (max ⌊radius⌋ 0).toNat
  if windowRadius = 0 then values
  else
    (List.range values.length).map (fun idx =>
      match values[idx]? with
      | some none => none
      | some (some _) =>
        let neighbors := (List.range (2 * windowRadius + 1)).filterMap
          (fun (o : ℕ) => finiteAt values ((idx : ℤ) + (o : ℤ) - (windowRadius : ℤ)))
        if 0 < neighbors.length then some (JSNum.fin (neighbors.sum / (neighbors.length : ℝ)))
        else none
      | none => none)

/-- The result record of `performLinearRegression`. -/
structure Regression where
  alpha : ℝ
  beta : ℝ
  valid : Bool

/-- The `pairs` array of `performLinearRegression`: the value pairs of the
overlapping index range where both series hold finite numbers. -/
def validPairs (seriesA seriesB : List JSNum) : List (ℝ × ℝ) :=
  (List.range (min seriesA.length seriesB.length)).filterMap (fun i =>
    match seriesA[i]?, seriesB[i]? with
    | some (JSNum.fin a), some (JSNum.fin b) => some (a, b)
    | _, _ => none)

/-- From the source: `performLinearRegression` (ordinary least squares of
A on B over the finite pairs, with the degenerate-denominator fallback). -/
noncomputable def performLinearRegression (seriesA seriesB : List JSNum) : Regression :=
  let pairs := validPairs seriesA seriesB
  if pairs.length < 2 then { alpha := 0, beta := 0, valid := false }
  else
    let n : ℝ := (pairs.length : ℝ)
    let sumX := (pairs.map (fun p => p.2)).sum
    let sumY := (pairs.map (fun p => p.1)).sum
    let sumXY := (pairs.map (fun p => p.1 * p.2)).sum
    let sumXX := (pairs.map (fun p => p.2 * p.2)).sum
    let denominator := n * sumXX - sumX * sumX
    if denominator = 0 then { alpha := sumY / n, beta := 0, valid := true }
    else
      let beta := (n * sumXY - sumX * sumY) / denominator
      { alpha := (sumY - beta * sumX) / n, beta := beta, valid := true }

/-- The `residuals` array of `computeCointegrationZScore` at index `i`:
`a - (alpha + beta * b)` where both values are finite, `null` otherwise. -/
def residualAt (seriesA seriesB : List JSNum) (reg : Regression) (i : ℕ) : Option ℝ :=
  match seriesA[i]?, seriesB[i]? with
  | some (JSNum.fin a), some (JSNum.fin b) => some (a - (reg.alpha + reg.beta * b))
  | _, _ => none

/-- The body of `computeCointegrationZScore`'s z-score loop for one index:
the insufficient-history and null-residual guards, the trailing window
`[max 0 (i - (safeWindow-1)), i]` of defined residuals (natural
subtraction is the `Math.max(0, ...)` clamp), the minimum-count guard,
population mean and standard deviation, and the zero/non-finite-std guard
(a residual and its std are exact reals here, so the source's
`Number.isFinite` tests on them cannot fire). -/
noncomputable def zscoreAt (residuals : ℕ → Option ℝ) (safeWindow i : ℕ) : Option ℝ :=
  if i < safeWindow - 1 then none
  else
    match residuals i with
    | none => none
    | some currentResidual =>
      let start := i - (safeWindow - 1)
      let slice := (List.range (i + 1 - start)).filterMap (fun k => residuals (start + k))
      if slice.length < 2 then none
      else
        let mean := slice.sum / (slice.length : ℝ)
        let variance := (slice.map (fun v => (v - mean) ^ 2)).sum / (slice.length : ℝ)
        let std := Real.sqrt variance
        if std = 0 then none
        else some ((currentResidual - mean) / std)

/-- From the source: `computeCointegrationZScore`. -/
noncomputable def computeCointegrationZScore (seriesA seriesB : List JSNum) (window : ℝ) :
    List (Option ℝ) :=
  let length := min seriesA.length seriesB.length
  if length = 0 then List.replicate length none
  else
    let regression := performLinearRegression seriesA seriesB
    if regression.valid = false then List.replicate length none
    else
      let safeWindow := (max ⌊window⌋ 2).toNat
      (List.range length).map (zscoreAt (residualAt seriesA seriesB regression) safeWindow)

/-! ### Helper lemmas -/

lemma effectiveWindow_pos (window : ℝ) : 0 < effectiveWindow window := by
  have h : (1:ℤ) ≤ max ⌊window⌋ 1 := le_max_right _ _
  have h2 := Int.toNat_le_toNat h
  simp only [effectiveWindow]
  omega

lemma slidingCorrelation_getElem (seriesA seriesB : List ℝ) (window : ℝ) (i : ℕ)
    (hi : i < min seriesA.length seriesB.length) :
    (slidingCorrelation seriesA seriesB window)[i]? =
      some (if i < effectiveWindow window then none
        else windowCorr
          ((seriesA.drop (i - effectiveWindow window)).take (effectiveWindow window))
          ((seriesB.drop (i - effectiveWindow window)).take (effectiveWindow window))
          (effectiveWindow window)) := by
  unfold slidingCorrelation
  rw [List.getElem?_map, List.getElem?_range hi]
  rfl

lemma zipSum_comm (f g : ℝ → ℝ) :
    ∀ l₁ l₂ : List ℝ,
      ((l₁.zip l₂).map (fun p => f p.1 * g p.2)).sum
        = ((l₂.zip l₁).map (fun p => g p.1 * f p.2)).sum := by
  intro l₁
  induction l₁ with
  | nil => intro l₂; cases l₂ <;> simp
  | cons x xs ih => intro l₂; cases l₂ <;> simp [ih, mul_comm]

lemma windowCorr_comm (sliceA sliceB : List ℝ) (safeWindow : ℕ) :
    windowCorr sliceA sliceB safeWindow = windowCorr sliceB sliceA safeWindow := by
  unfold windowCorr
  dsimp only
  rw [zipSum_comm (fun a => a - sliceA.sum / (safeWindow : ℝ))
    (fun b => b - sliceB.sum / (safeWindow : ℝ)) sliceA sliceB]
  exact if_congr or_comm rfl (by rw [mul_comm])

lemma performLinearRegression_invalid (seriesA seriesB : List JSNum)
    (h : (validPairs seriesA seriesB).length < 2) :
    performLinearRegression seriesA seriesB = { alpha := 0, beta := 0, valid := false } := by
  unfold performLinearRegression
  dsimp only
  rw [if_pos h]

lemma coint_invalid_replicate (seriesA seriesB : List JSNum) (window : ℝ)
    (h : (validPairs seriesA seriesB).length < 2) :
    computeCointegrationZScore seriesA seriesB window
      = List.replicate (min seriesA.length seriesB.length) none := by
  unfold computeCointegrationZScore
  dsimp only
  split
  · rfl
  · rw [performLinearRegression_invalid seriesA seriesB h]
    rw [if_pos rfl]

lemma windowCorr_const_left (sliceB : List ℝ) (safeWindow : ℕ) (c : ℝ)
    (hW : 0 < safeWindow) :
    windowCorr (List.replicate safeWindow c) sliceB safeWindow = none := by
  unfold windowCorr
  dsimp only
  have hWr : ((safeWindow : ℝ)) ≠ 0 := Nat.cast_ne_zero.mpr hW.ne'
  have hmean : (List.replicate safeWindow c).sum / (safeWindow : ℝ) = c := by
    rw [List.sum_replicate, nsmul_eq_mul, mul_div_cancel_left₀ _ hWr]
  have hstd : Real.sqrt (((List.replicate safeWindow c).map
      (fun aVal => (aVal - (List.replicate safeWindow c).sum / (safeWindow : ℝ)) ^ 2)).sum
        / (safeWindow : ℝ)) = 0 := by
    rw [List.map_replicate, hmean, sub_self]
    simp
  rw [if_pos (Or.inl hstd)]

lemma windowCorr_const_right (sliceA : List ℝ) (safeWindow : ℕ) (c : ℝ)
    (hW : 0 < safeWindow) :
    windowCorr sliceA (List.replicate safeWindow c) safeWindow = none := by
  rw [windowCorr_comm]
  exact windowCorr_const_left sliceA safeWindow c hW

lemma sumSq_nonneg (l : List ℝ) (f : ℝ → ℝ) : 0 ≤ (l.map (fun x => (f x) ^ 2)).sum := by
  refine List.sum_nonneg fun x hx => ?_
  rcases List.mem_map.mp hx with ⟨a, _, rfl⟩
  positivity

/-- Cauchy-Schwarz for the zipped product of two real lists. -/
lemma list_cauchy_schwarz :
    ∀ l₁ l₂ : List ℝ,
      (((l₁.zip l₂).map (fun p => p.1 * p.2)).sum) ^ 2
        ≤ ((l₁.map (fun x => x ^ 2)).sum) * ((l₂.map (fun x => x ^ 2)).sum) := by
  intro l₁
  induction l₁ with
  | nil => intro l₂; simp
  | cons x xs ih =>
    intro l₂
    cases l₂ with
    | nil =>
      simp
    | cons y ys =>
      have hS := ih ys
      have hF : 0 ≤ ((xs.map (fun x => x ^ 2)).sum) := sumSq_nonneg xs id
      have hG : 0 ≤ ((ys.map (fun x => x ^ 2)).sum) := sumSq_nonneg ys id
      simp only [List.zip_cons_cons, List.map_cons, List.sum_cons]
      set S := ((xs.zip ys).map (fun p => p.1 * p.2)).sum with hSdef
      set F := (xs.map (fun x => x ^ 2)).sum with hFdef
      set G := (ys.map (fun x => x ^ 2)).sum with hGdef
      rcases hG.eq_or_lt with hG0 | hGpos
      · have hS0 : S = 0 := by
          have hle : S ^ 2 ≤ 0 := by rw [← hG0, mul_zero] at hS; exact hS
          exact pow_eq_zero_iff (n := 2) (by norm_num) |>.mp
            (le_antisymm hle (sq_nonneg S))
        rw [hS0, ← hG0]
        nlinarith [mul_nonneg hF (sq_nonneg y)]
      · have key : G * ((x ^ 2 + F) * (y ^ 2 + G) - (x * y + S) ^ 2)
            = (G * x - S * y) ^ 2 + (F * G - S ^ 2) * (y ^ 2 + G) := by ring
        have hnn : 0 ≤ (G * x - S * y) ^ 2 + (F * G - S ^ 2) * (y ^ 2 + G) :=
          add_nonneg (sq_nonneg _)
            (mul_nonneg (sub_nonneg.mpr hS) (by positivity))
        nlinarith [key, hnn, hGpos]

lemma sumSq_div_nonneg (l : List ℝ) (f : ℝ → ℝ) (W : ℕ) :
    0 ≤ (l.map (fun x => (f x) ^ 2)).sum / (W : ℝ) :=
  div_nonneg (sumSq_nonneg l f) (Nat.cast_nonneg W)

/-- Any value produced by the per-window computation lies in [-1, 1]. -/
lemma windowCorr_some_bound (sliceA sliceB : List ℝ) (safeWindow : ℕ) (x : ℝ)
    (h : windowCorr sliceA sliceB safeWindow = some x) : -1 ≤ x ∧ x ≤ 1 := by
  unfold windowCorr at h
  dsimp only at h
  set W : ℝ := (safeWindow : ℝ) with hWdef
  set mA := sliceA.sum / W with hmA
  set mB := sliceB.sum / W with hmB
  set SA := (sliceA.map (fun aVal => (aVal - mA) ^ 2)).sum with hSA
  set SB := (sliceB.map (fun bVal => (bVal - mB) ^ 2)).sum with hSB
  set C := ((sliceA.zip sliceB).map (fun p => (p.1 - mA) * (p.2 - mB))).sum with hC
  by_cases hz : Real.sqrt (SA / W) = 0 ∨ Real.sqrt (SB / W) = 0
  · rw [if_pos hz] at h; exact absurd h (by simp)
  rw [if_neg hz] at h
  push_neg at hz
  obtain ⟨hzA, hzB⟩ := hz
  have hSAnn : 0 ≤ SA := sumSq_nonneg sliceA (fun aVal => aVal - mA)
  have hSBnn : 0 ≤ SB := sumSq_nonneg sliceB (fun bVal => bVal - mB)
  have hWnn : 0 ≤ W := Nat.cast_nonneg safeWindow
  have hadiv : 0 < SA / W := by
    rcases (div_nonneg hSAnn hWnn).eq_or_lt with he | hp
    · exact absurd (by rw [← he]; exact Real.sqrt_zero) hzA
    · exact hp
  have hbdiv : 0 < SB / W := by
    rcases (div_nonneg hSBnn hWnn).eq_or_lt with he | hp
    · exact absurd (by rw [← he]; exact Real.sqrt_zero) hzB
    · exact hp
  have hWpos : 0 < W := by
    by_contra hc
    have hW0 : W = 0 := le_antisymm (not_lt.mp hc) hWnn
    rw [hW0, div_zero] at hadiv
    exact lt_irrefl 0 hadiv
  have hSApos : 0 < SA := by
    have := (div_pos_iff.mp hadiv)
    rcases this with ⟨h1, _⟩ | ⟨_, h2⟩
    · exact h1
    · exact absurd hWpos (by linarith)
  have hSBpos : 0 < SB := by
    rcases (div_pos_iff.mp hbdiv) with ⟨h1, _⟩ | ⟨_, h2⟩
    · exact h1
    · exact absurd hWpos (by linarith)
  -- Cauchy-Schwarz on the centred slices
  have hcs : C ^ 2 ≤ SA * SB := by
    have h0 := list_cauchy_schwarz (sliceA.map (fun aVal => aVal - mA))
      (sliceB.map (fun bVal => bVal - mB))
    rw [List.zip_map, List.map_map, List.map_map, List.map_map] at h0
    exact h0
  have habs : |C| ≤ Real.sqrt SA * Real.sqrt SB := by
    have h1 : |C| ≤ Real.sqrt (SA * SB) := Real.abs_le_sqrt hcs
    rwa [Real.sqrt_mul hSAnn] at h1
  have hprod : Real.sqrt (SA / W) * Real.sqrt (SB / W)
      = Real.sqrt SA * Real.sqrt SB / W := by
    rw [Real.sqrt_div hSAnn, Real.sqrt_div hSBnn]
    rw [div_mul_div_comm, Real.mul_self_sqrt hWnn]
  have hx : x = C / W / (Real.sqrt (SA / W) * Real.sqrt (SB / W)) :=
    (Option.some.inj h).symm
  have hdenpos : 0 < Real.sqrt (SA / W) * Real.sqrt (SB / W) :=
    mul_pos (Real.sqrt_pos.mpr hadiv) (Real.sqrt_pos.mpr hbdiv)
  have habsx : |x| ≤ 1 := by
    rw [hx, abs_div, abs_of_pos hdenpos, div_le_one hdenpos, hprod, abs_div,
      abs_of_pos hWpos, div_le_div_iff_of_pos_right hWpos]
    exact habs
  exact abs_le.mp habsx

lemma zip_self_map_sum (f : ℝ → ℝ) :
    ∀ s : List ℝ, ((s.zip s).map (fun p => f p.1 * f p.2)).sum
      = (s.map (fun a => (f a) ^ 2)).sum := by
  intro s
  induction s with
  | nil => simp
  | cons x xs ih => simp [ih, sq]

/-- Self-correlation: a defined per-window value on identical slices is 1. -/
lemma windowCorr_self_eq_one (s : List ℝ) (safeWindow : ℕ) (x : ℝ)
    (h : windowCorr s s safeWindow = some x) : x = 1 := by
  unfold windowCorr at h
  dsimp only at h
  set W : ℝ := (safeWindow : ℝ) with hWdef
  set m := s.sum / W with hm
  set SA := (s.map (fun aVal => (aVal - m) ^ 2)).sum with hSA
  by_cases hz : Real.sqrt (SA / W) = 0 ∨ Real.sqrt (SA / W) = 0
  · rw [if_pos hz] at h; exact absurd h (by simp)
  rw [if_neg hz] at h
  push_neg at hz
  have hzA := hz.1
  have hSAnn : 0 ≤ SA := sumSq_nonneg s (fun aVal => aVal - m)
  have hWnn : 0 ≤ W := Nat.cast_nonneg safeWindow
  have hdivnn : 0 ≤ SA / W := div_nonneg hSAnn hWnn
  have hdivpos : 0 < SA / W := by
    rcases hdivnn.eq_or_lt with he | hp
    · exact absurd (by rw [← he]; exact Real.sqrt_zero) hzA
    · exact hp
  have hcov : ((s.zip s).map (fun p => (p.1 - m) * (p.2 - m))).sum = SA :=
    zip_self_map_sum (fun a => a - m) s
  rw [hcov] at h
  have hx : x = SA / W / (Real.sqrt (SA / W) * Real.sqrt (SA / W)) :=
    (Option.some.inj h).symm
  rw [Real.mul_self_sqrt hdivnn] at hx
  rw [hx, div_self hdivpos.ne']

/-- Self-correlation: a nonzero window variance makes the per-window value
defined and equal to 1. -/
lemma windowCorr_self_defined (s : List ℝ) (safeWindow : ℕ)
    (hvar : (s.map (fun aVal => (aVal - s.sum / (safeWindow : ℝ)) ^ 2)).sum
      / (safeWindow : ℝ) ≠ 0) :
    windowCorr s s safeWindow = some 1 := by
  unfold windowCorr
  dsimp only
  set W : ℝ := (safeWindow : ℝ) with hWdef
  set m := s.sum / W with hm
  set SA := (s.map (fun aVal => (aVal - m) ^ 2)).sum with hSA
  have hSAnn : 0 ≤ SA := sumSq_nonneg s (fun aVal => aVal - m)
  have hWnn : 0 ≤ W := Nat.cast_nonneg safeWindow
  have hdivpos : 0 < SA / W := (div_nonneg hSAnn hWnn).lt_of_ne (Ne.symm hvar)
  have hzA : Real.sqrt (SA / W) ≠ 0 := by
    rw [Real.sqrt_ne_zero (le_of_lt hdivpos)]
    exact hdivpos.ne'
  rw [if_neg (by push_neg; exact ⟨hzA, hzA⟩)]
  have hcov : ((s.zip s).map (fun p => (p.1 - m) * (p.2 - m))).sum = SA :=
    zip_self_map_sum (fun a => a - m) s
  rw [hcov, Real.mul_self_sqrt (div_nonneg hSAnn hWnn), div_self hdivpos.ne']

lemma effectiveWindow_two : effectiveWindow 2 = 2 := by
  unfold effectiveWindow
  rw [show (2:ℝ) = ((2:ℤ) : ℝ) by norm_num, Int.floor_intCast]
  rfl

lemma effectiveWindow_three : effectiveWindow 3 = 3 := by
  unfold effectiveWindow
  rw [show (3:ℝ) = ((3:ℤ) : ℝ) by norm_num, Int.floor_intCast]
  rfl

/-- A self-correlation position with nonzero window variance evaluates
to 1. -/
lemma slidingCorrelation_self_at (S : List ℝ) (window : ℝ) (i : ℕ)
    (hi : i < S.length) (hw : effectiveWindow window ≤ i)
    (hvar : (((S.drop (i - effectiveWindow window)).take (effectiveWindow window)).map
      (fun aVal => (aVal -
        ((S.drop (i - effectiveWindow window)).take (effectiveWindow window)).sum
          / (effectiveWindow window : ℝ)) ^ 2)).sum / (effectiveWindow window : ℝ) ≠ 0) :
    (slidingCorrelation S S window)[i]? = some (some 1) := by
  rw [slidingCorrelation_getElem S S window i (by simpa using hi),
    if_neg (Nat.not_lt.mpr hw), windowCorr_self_defined _ _ hvar]

/-! ### Claim theorems -/

/-- C2: for every input, the output of `slidingCorrelation` and of
`computeCointegrationZScore` has length `min (len seriesA) (len seriesB)`,
and the output of `smoothSeries` has the length of its input. -/
theorem output_lengths :
    (∀ (seriesA seriesB : List ℝ) (window : ℝ),
      (slidingCorrelation seriesA seriesB window).length
        = min seriesA.length seriesB.length) ∧
    (∀ (seriesA seriesB : List JSNum) (window : ℝ),
      (computeCointegrationZScore seriesA seriesB window).length
        = min seriesA.length seriesB.length) ∧
    (∀ (values : List (Option JSNum)) (radius : ℝ),
      (smoothSeries values radius).length = values.length) := by
  refine ⟨fun A B w => ?_, fun A B w => ?_, fun v r => ?_⟩
  · simp [slidingCorrelation]
  · unfold computeCointegrationZScore
    dsimp only
    split
    · simp
    · split <;> simp
  · unfold smoothSeries
    dsimp only
    split <;> simp

/-- C9: every position that is `null` in the input to `smoothSeries` is
`null` in the output; the smoother never synthesizes a value for an
undefined position. -/
theorem smoothSeries_preserves_undefined (values : List (Option JSNum)) (radius : ℝ)
    (i : ℕ) (h : values[i]? = some none) :
    (smoothSeries values radius)[i]? = some none := by
  have hi : i < values.length := (List.getElem?_eq_some.mp h).1
  unfold smoothSeries
  dsimp only
  split
  · exact h
  · rw [List.getElem?_map, List.getElem?_range hi]
    simp [h]

/-- Witness for C9 at `values = [null]`, `radius = 1`, `i = 0`. -/
theorem smoothSeries_preserves_undefined_witness :
    (smoothSeries [none] (1:ℝ))[0]? = some none :=
  smoothSeries_preserves_undefined [none] 1 0 rfl

/-- C3: with effective window `W = max (floor window) 1`, the
`slidingCorrelation` output at every index `i < W` is undefined, and at
every index `i ≥ W` it is exactly the per-window computation
(`windowCorr`) applied to the trailing slices of the two inputs covering
indices `i-W .. i-1` (`slice(i-W, i)`, the current index excluded). -/
theorem slidingCorrelation_window_semantics (seriesA seriesB : List ℝ) (window : ℝ)
    (i : ℕ) (hi : i < min seriesA.length seriesB.length) :
    (i < effectiveWindow window →
      (slidingCorrelation seriesA seriesB window)[i]? = some none) ∧
    (effectiveWindow window ≤ i →
      (slidingCorrelation seriesA seriesB window)[i]? =
        some (windowCorr
          ((seriesA.drop (i - effectiveWindow window)).take (effectiveWindow window))
          ((seriesB.drop (i - effectiveWindow window)).take (effectiveWindow window))
          (effectiveWindow window))) := by
  rw [slidingCorrelation_getElem seriesA seriesB window i hi]
  constructor
  · intro h; rw [if_pos h]
  · intro h; rw [if_neg (Nat.not_lt.mpr h)]

/-- Witness for C3 at `seriesA = [1,2,3]`, `seriesB = [4,5,6]`,
`window = 2`, instantiated at indices 1 (below the window) and 2. -/
theorem slidingCorrelation_window_semantics_witness :
    ((1:ℕ) < min ([(1:ℝ),2,3].length) ([(4:ℝ),5,6].length) ∧
      (slidingCorrelation [(1:ℝ),2,3] [(4:ℝ),5,6] 2)[1]? = some none) ∧
    ((slidingCorrelation [(1:ℝ),2,3] [(4:ℝ),5,6] 2)[2]? =
      some (windowCorr [(1:ℝ),2] [(4:ℝ),5] 2)) := by
  have heff : effectiveWindow 2 = 2 := by
    unfold effectiveWindow
    rw [show ⌊(2:ℝ)⌋ = 2 by norm_num]
    rfl
  have h1 := slidingCorrelation_window_semantics [(1:ℝ),2,3] [(4:ℝ),5,6] 2 1 (by norm_num)
  have h2 := slidingCorrelation_window_semantics [(1:ℝ),2,3] [(4:ℝ),5,6] 2 2 (by norm_num)
  rw [heff] at h1 h2
  exact ⟨⟨by norm_num, h1.1 (by norm_num)⟩, h2.2 (by norm_num)⟩

/-- C10 (implicit): `slidingCorrelation` is symmetric in its two series
arguments, position by position. -/
theorem slidingCorrelation_symm (seriesA seriesB : List ℝ) (window : ℝ) :
    slidingCorrelation seriesA seriesB window
      = slidingCorrelation seriesB seriesA window := by
  unfold slidingCorrelation
  dsimp only
  rw [min_comm seriesA.length seriesB.length]
  refine List.map_congr_left fun i _ => ?_
  by_cases h : i < effectiveWindow window
  · simp [h]
  · simp only [if_neg h]
    exact windowCorr_comm _ _ _

/-- C6: when fewer than 2 index positions of the overlapping range hold
finite numbers in both sequences, `computeCointegrationZScore` marks the
regression invalid and returns the all-undefined sequence of the
overlapping length. -/
theorem coint_insufficient_pairs (seriesA seriesB : List JSNum) (window : ℝ)
    (h : (validPairs seriesA seriesB).length < 2) :
    (performLinearRegression seriesA seriesB).valid = false ∧
    computeCointegrationZScore seriesA seriesB window
      = List.replicate (min seriesA.length seriesB.length) none := by
  constructor
  · rw [performLinearRegression_invalid seriesA seriesB h]
  · exact coint_invalid_replicate seriesA seriesB window h

/-- Witness for C6 at `seriesA = [NaN]`, `seriesB = [1]` (0 finite
pairs), `window = 5`. -/
theorem coint_insufficient_pairs_witness :
    (validPairs [JSNum.nan] [JSNum.fin 1]).length < 2 ∧
    computeCointegrationZScore [JSNum.nan] [JSNum.fin 1] 5 = [none] := by
  have h : (validPairs [JSNum.nan] [JSNum.fin 1]).length < 2 := by
    rw [show validPairs [JSNum.nan] [JSNum.fin 1] = [] from rfl]
    decide
  exact ⟨h, by simpa using (coint_insufficient_pairs [JSNum.nan] [JSNum.fin 1] 5 h).2⟩

/-- C8: each degenerate condition is reported as the undefined marker at
the affected output position, never as a failure: insufficient window
history, a zero-variance (constant) correlation window, and insufficient
finite pairs for the cointegration regression all yield the undefined
marker. -/
theorem degenerate_conditions_yield_undefined :
    (∀ (seriesA seriesB : List ℝ) (window : ℝ) (i : ℕ),
      i < min seriesA.length seriesB.length → i < effectiveWindow window →
      (slidingCorrelation seriesA seriesB window)[i]? = some none) ∧
    (∀ (seriesA seriesB : List ℝ) (window : ℝ) (i : ℕ) (c : ℝ),
      i < min seriesA.length seriesB.length → effectiveWindow window ≤ i →
      ((seriesA.drop (i - effectiveWindow window)).take (effectiveWindow window)
          = List.replicate (effectiveWindow window) c ∨
        (seriesB.drop (i - effectiveWindow window)).take (effectiveWindow window)
          = List.replicate (effectiveWindow window) c) →
      (slidingCorrelation seriesA seriesB window)[i]? = some none) ∧
    (∀ (seriesA seriesB : List JSNum) (window : ℝ) (z : Option ℝ),
      (validPairs seriesA seriesB).length < 2 →
      z ∈ computeCointegrationZScore seriesA seriesB window → z = none) := by
  refine ⟨fun A B w i hi hw => ?_, fun A B w i c hi hw hslice => ?_,
    fun A B w z h hz => ?_⟩
  · rw [slidingCorrelation_getElem A B w i hi, if_pos hw]
  · rcases hslice with hsliceA | hsliceB
    · rw [slidingCorrelation_getElem A B w i hi, if_neg (Nat.not_lt.mpr hw), hsliceA,
        windowCorr_const_left _ (effectiveWindow w) c (effectiveWindow_pos w)]
    · rw [slidingCorrelation_getElem A B w i hi, if_neg (Nat.not_lt.mpr hw), hsliceB,
        windowCorr_const_right _ (effectiveWindow w) c (effectiveWindow_pos w)]
  · rw [coint_invalid_replicate A B w h] at hz
    exact List.eq_of_mem_replicate hz

/-- Witness for C8: insufficient history at `[1,2,3]`, `[1,2,3]`,
`window = 5`, index 1; a constant (zero-variance) seriesA window at
`[5,5,5]`, `[1,2,3]`, `window = 2`, index 2; a constant seriesB window
at `[1,2,3]`, `[5,5,5]`, `window = 2`, index 2; insufficient finite
pairs at `[NaN]`, `[1]`. -/
theorem degenerate_conditions_yield_undefined_witness :
    (slidingCorrelation [(1:ℝ),2,3] [(1:ℝ),2,3] 5)[1]? = some none ∧
    (slidingCorrelation [(5:ℝ),5,5] [(1:ℝ),2,3] 2)[2]? = some none ∧
    (slidingCorrelation [(1:ℝ),2,3] [(5:ℝ),5,5] 2)[2]? = some none ∧
    (none : Option ℝ) = none := by
  have h5 : effectiveWindow 5 = 5 := by
    unfold effectiveWindow
    rw [show ⌊(5:ℝ)⌋ = 5 by norm_num]
    rfl
  have h2 : effectiveWindow 2 = 2 := by
    unfold effectiveWindow
    rw [show ⌊(2:ℝ)⌋ = 2 by norm_num]
    rfl
  refine ⟨?_, ?_, ?_, ?_⟩
  · exact degenerate_conditions_yield_undefined.1 [(1:ℝ),2,3] [(1:ℝ),2,3] 5 1
      (by norm_num) (by rw [h5]; norm_num)
  · exact degenerate_conditions_yield_undefined.2.1 [(5:ℝ),5,5] [(1:ℝ),2,3] 2 2 5
      (by norm_num) (by rw [h2]) (Or.inl (by rw [h2]; rfl))
  · exact degenerate_conditions_yield_undefined.2.1 [(1:ℝ),2,3] [(5:ℝ),5,5] 2 2 5
      (by norm_num) (by rw [h2]) (Or.inr (by rw [h2]; rfl))
  · exact degenerate_conditions_yield_undefined.2.2 [JSNum.nan] [JSNum.fin 1] 5 none
      (by rw [show validPairs [JSNum.nan] [JSNum.fin 1] = [] from rfl]; decide)
      (by rw [coint_invalid_replicate _ _ _
        (by rw [show validPairs [JSNum.nan] [JSNum.fin 1] = [] from rfl]; decide)]; simp)

/-- C1: every defined position of the `slidingCorrelation` output holds a
value in the closed interval [-1, 1]. -/
theorem slidingCorrelation_bounded (seriesA seriesB : List ℝ) (window : ℝ) (i : ℕ)
    (x : ℝ) (h : (slidingCorrelation seriesA seriesB window)[i]? = some (some x)) :
    -1 ≤ x ∧ x ≤ 1 := by
  have hi : i < min seriesA.length seriesB.length := by
    have hlen := (List.getElem?_eq_some.mp h).1
    simpa [slidingCorrelation] using hlen
  rw [slidingCorrelation_getElem seriesA seriesB window i hi] at h
  by_cases hw : i < effectiveWindow window
  · rw [if_pos hw] at h
    exact absurd (Option.some.inj h) (by simp)
  · rw [if_neg hw] at h
    exact windowCorr_some_bound _ _ _ x (Option.some.inj h)

/-- Witness for C1 at `seriesA = seriesB = [1,2,3]`, `window = 2`,
index 2, whose defined value is 1. -/
theorem slidingCorrelation_bounded_witness :
    (slidingCorrelation [(1:ℝ),2,3] [(1:ℝ),2,3] 2)[2]? = some (some 1) ∧
    (-1 ≤ (1:ℝ) ∧ (1:ℝ) ≤ 1) := by
  have heq : (slidingCorrelation [(1:ℝ),2,3] [(1:ℝ),2,3] 2)[2]? = some (some 1) := by
    refine slidingCorrelation_self_at [(1:ℝ),2,3] 2 2 (by norm_num) ?_ ?_
    · rw [effectiveWindow_two]
    · rw [effectiveWindow_two]
      norm_num [List.drop_succ_cons, List.drop_zero, List.take_succ_cons,
        List.take_zero, List.map_cons, List.map_nil, List.sum_cons, List.sum_nil]
  exact ⟨heq, slidingCorrelation_bounded [(1:ℝ),2,3] [(1:ℝ),2,3] 2 2 1 heq⟩

/-- C5: `slidingCorrelation` of a series with itself holds exactly 1 at
every defined output position; concretely, for the series
`[1,...,10]` and `window = 3` the output is undefined at indices 0-2 and
exactly 1 at indices 3-9. -/
theorem slidingCorrelation_self_corr (S : List ℝ) (window : ℝ) :
    (∀ (i : ℕ) (x : ℝ),
      (slidingCorrelation S S window)[i]? = some (some x) → x = 1) ∧
    slidingCorrelation [(1:ℝ),2,3,4,5,6,7,8,9,10] [(1:ℝ),2,3,4,5,6,7,8,9,10] 3
      = [none, none, none, some 1, some 1, some 1, some 1, some 1, some 1, some 1] := by
  constructor
  · intro i x h
    have hi : i < min S.length S.length := by
      have hlen := (List.getElem?_eq_some.mp h).1
      simpa [slidingCorrelation] using hlen
    rw [slidingCorrelation_getElem S S window i hi] at h
    by_cases hw : i < effectiveWindow window
    · rw [if_pos hw] at h
      exact absurd (Option.some.inj h) (by simp)
    · rw [if_neg hw] at h
      exact windowCorr_self_eq_one _ _ x (Option.some.inj h)
  · unfold slidingCorrelation
    dsimp only
    rw [effectiveWindow_three,
      show min ([(1:ℝ),2,3,4,5,6,7,8,9,10].length) ([(1:ℝ),2,3,4,5,6,7,8,9,10].length)
        = 10 from rfl,
      show List.range 10 = [0,1,2,3,4,5,6,7,8,9] from rfl]
    simp only [List.map_cons, List.map_nil]
    norm_num
    refine ⟨?_, ?_, ?_, ?_, ?_, ?_, ?_⟩ <;>
      exact windowCorr_self_defined _ _ (by
        norm_num [List.drop_succ_cons, List.drop_zero, List.take_succ_cons,
          List.take_zero, List.map_cons, List.map_nil, List.sum_cons, List.sum_nil])

/-- Witness for C5 at `S = [2,4,6]`, `window = 2`, index 2. -/
theorem slidingCorrelation_self_corr_witness :
    (slidingCorrelation [(2:ℝ),4,6] [(2:ℝ),4,6] 2)[2]? = some (some 1) ∧ (1:ℝ) = 1 := by
  have heq : (slidingCorrelation [(2:ℝ),4,6] [(2:ℝ),4,6] 2)[2]? = some (some 1) := by
    refine slidingCorrelation_self_at [(2:ℝ),4,6] 2 2 (by norm_num) ?_ ?_
    · rw [effectiveWindow_two]
    · rw [effectiveWindow_two]
      norm_num [List.drop_succ_cons, List.drop_zero, List.take_succ_cons,
        List.take_zero, List.map_cons, List.map_nil, List.sum_cons, List.sum_nil]
  exact ⟨heq, (slidingCorrelation_self_corr [(2:ℝ),4,6] 2).1 2 1 heq⟩

lemma smoothRadius_one : (max ⌊(1:ℝ)⌋ 0).toNat = 1 := by
  rw [show (1:ℝ) = ((1:ℤ) : ℝ) by norm_num, Int.floor_intCast]
  rfl

/-- C4 counterexample: a defined but non-finite input position (NaN at
index 0, with no finite neighbour in radius 1) produces an undefined
output position, so a defined input slot does not always yield a defined
output. -/
theorem smoothSeries_drops_nonfinite :
    [some JSNum.nan][0]? = some (some JSNum.nan) ∧
    (smoothSeries [some JSNum.nan] 1)[0]? = some none := by
  refine ⟨rfl, ?_⟩
  unfold smoothSeries
  dsimp only
  rw [smoothRadius_one]
  rfl

/-- C4 (amended): every input position holding a finite number yields a
defined, finite output value; only positions that were undefined on
input, or that held a non-finite number with no finite value in range,
are undefined in the `smoothSeries` output. -/
theorem smoothSeries_finite_defined (values : List (Option JSNum)) (radius : ℝ)
    (i : ℕ) (x : ℝ) (h : values[i]? = some (some (JSNum.fin x))) :
    ∃ y : ℝ, (smoothSeries values radius)[i]? = some (some (JSNum.fin y)) := by
  have hi : i < values.length := (List.getElem?_eq_some.mp h).1
  unfold smoothSeries
  dsimp only
  by_cases hR0 : (max ⌊radius⌋ 0).toNat = 0
  · rw [if_pos hR0]
    exact ⟨x, h⟩
  · rw [if_neg hR0]
    rw [List.getElem?_map, List.getElem?_range hi]
    simp only [Option.map_some', h]
    set R := (max ⌊radius⌋ 0).toNat with hRdef
    have hmem : x ∈ (List.range (2 * R + 1)).filterMap
        (fun (o : ℕ) => finiteAt values ((i : ℤ) + (o : ℤ) - (R : ℤ))) := by
      have hRlt : R < 2 * R + 1 := by omega
      refine List.mem_filterMap.mpr ⟨R, List.mem_range.mpr hRlt, ?_⟩
      have hcancel : (i : ℤ) + (R : ℤ) - (R : ℤ) = (i : ℤ) := by ring
      rw [hcancel]
      unfold finiteAt
      rw [if_pos (Int.ofNat_nonneg i)]
      simp [h]
    have hlen : 0 < ((List.range (2 * R + 1)).filterMap
        (fun (o : ℕ) => finiteAt values ((i : ℤ) + (o : ℤ) - (R : ℤ)))).length :=
      List.length_pos.mpr (List.ne_nil_of_mem hmem)
    rw [if_pos hlen]
    exact ⟨_, rfl⟩

/-- Witness for the amended C4 at `values = [2]` (finite), `radius = 1`,
index 0. -/
theorem smoothSeries_finite_defined_witness :
    ∃ y : ℝ, (smoothSeries [some (JSNum.fin 2)] 1)[0]? = some (some (JSNum.fin y)) :=
  smoothSeries_finite_defined [some (JSNum.fin 2)] 1 0 2 rfl

lemma mem_validPairs_self (S : List JSNum) (p : ℝ × ℝ)
    (hp : p ∈ validPairs S S) : p.1 = p.2 := by
  unfold validPairs at hp
  rcases List.mem_filterMap.mp hp with ⟨i, _, hi⟩
  cases hA : S[i]? with
  | none => rw [hA] at hi; cases hi
  | some v =>
    rw [hA] at hi
    cases v with
    | fin a => rw [← Option.some.inj hi]
    | nan => cases hi
    | posInf => cases hi
    | negInf => cases hi

lemma two_distinct_mem_length {α : Type} {l : List α} {a b : α}
    (ha : a ∈ l) (hb : b ∈ l) (hne : a ≠ b) : 2 ≤ l.length := by
  rcases List.append_of_mem ha with ⟨s, t, rfl⟩
  rw [List.mem_append, List.mem_cons] at hb
  rcases hb with hbs | hb | hbt
  · have hs := List.length_pos.mpr (List.ne_nil_of_mem hbs)
    simp only [List.length_append, List.length_cons]
    omega
  · exact absurd hb.symm hne
  · have ht := List.length_pos.mpr (List.ne_nil_of_mem hbt)
    simp only [List.length_append, List.length_cons]
    omega

lemma sum_sq_dev (c : ℝ) : ∀ l : List ℝ,
    (l.map (fun x => (x - c) ^ 2)).sum
      = (l.map (fun x => x ^ 2)).sum - 2 * c * l.sum + (l.length : ℝ) * c ^ 2 := by
  intro l
  induction l with
  | nil => simp
  | cons x xs ih =>
    simp only [List.map_cons, List.sum_cons, List.length_cons, ih]
    push_cast
    ring

lemma sum_map_pos_of_mem {l : List ℝ} {f : ℝ → ℝ} (hnn : ∀ x ∈ l, 0 ≤ f x)
    {a : ℝ} (ha : a ∈ l) (hpos : 0 < f a) : 0 < (l.map f).sum := by
  rcases List.append_of_mem ha with ⟨s, t, rfl⟩
  rw [List.map_append, List.sum_append, List.map_cons, List.sum_cons]
  have hs : 0 ≤ (s.map f).sum := by
    refine List.sum_nonneg fun x hx => ?_
    rcases List.mem_map.mp hx with ⟨y, hy, rfl⟩
    exact hnn y (by simp [hy])
  have ht : 0 ≤ (t.map f).sum := by
    refine List.sum_nonneg fun x hx => ?_
    rcases List.mem_map.mp hx with ⟨y, hy, rfl⟩
    exact hnn y (by simp [hy])
  linarith

/-- A list containing two distinct values has a strictly positive
ordinary-least-squares denominator `n * sum(v^2) - (sum v)^2`. -/
lemma ols_denominator_pos (l : List ℝ) (x y : ℝ) (hx : x ∈ l) (hy : y ∈ l)
    (hne : x ≠ y) :
    0 < (l.length : ℝ) * (l.map (fun v => v ^ 2)).sum - l.sum ^ 2 := by
  have hn : 0 < l.length := List.length_pos.mpr (List.ne_nil_of_mem hx)
  have hnr : 0 < (l.length : ℝ) := by exact_mod_cast hn
  set n : ℝ := (l.length : ℝ) with hndef
  set m : ℝ := l.sum / n with hmdef
  have hkey : n * ((l.map (fun v => (v - m) ^ 2)).sum)
      = n * (l.map (fun v => v ^ 2)).sum - l.sum ^ 2 := by
    rw [sum_sq_dev m l, ← hndef, hmdef]
    field_simp
    ring
  have hxy : x ≠ m ∨ y ≠ m := by
    by_contra hc
    push_neg at hc
    exact hne (hc.1.trans hc.2.symm)
  have hpos : 0 < (l.map (fun v => (v - m) ^ 2)).sum := by
    rcases hxy with hd | hd
    · exact sum_map_pos_of_mem (fun v _ => sq_nonneg _) hx
        (lt_of_le_of_ne (sq_nonneg _) (Ne.symm (pow_ne_zero 2 (sub_ne_zero.mpr hd))))
    · exact sum_map_pos_of_mem (fun v _ => sq_nonneg _) hy
        (lt_of_le_of_ne (sq_nonneg _) (Ne.symm (pow_ne_zero 2 (sub_ne_zero.mpr hd))))
  calc (0:ℝ) < n * ((l.map (fun v => (v - m) ^ 2)).sum) := mul_pos hnr hpos
  _ = n * (l.map (fun v => v ^ 2)).sum - l.sum ^ 2 := hkey

/-- Regressing a series on itself with two distinct finite values fits
slope 1 and intercept 0. -/
lemma performLinearRegression_self (S : List JSNum)
    (h : ∃ p ∈ validPairs S S, ∃ q ∈ validPairs S S, p.1 ≠ q.1) :
    performLinearRegression S S = { alpha := 0, beta := 1, valid := true } := by
  obtain ⟨p, hp, q, hq, hne⟩ := h
  have hp2 := mem_validPairs_self S p hp
  have hq2 := mem_validPairs_self S q hq
  have hpq : p ≠ q := fun he => hne (by rw [he])
  have hlen : 2 ≤ (validPairs S S).length := two_distinct_mem_length hp hq hpq
  unfold performLinearRegression
  dsimp only
  rw [if_neg (Nat.not_lt.mpr hlen)]
  set pairs := validPairs S S with hpairs
  have hXY : (pairs.map (fun r => r.1)).sum = (pairs.map (fun r => r.2)).sum := by
    rw [List.map_congr_left fun r hr => mem_validPairs_self S r hr]
  have hXYQ : (pairs.map (fun r => r.1 * r.2)).sum
      = (pairs.map (fun r => r.2 * r.2)).sum := by
    rw [List.map_congr_left fun r hr => by rw [mem_validPairs_self S r hr]]
  have hx1 : p.2 ∈ pairs.map (fun r => r.2) := List.mem_map.mpr ⟨p, hp, rfl⟩
  have hy1 : q.2 ∈ pairs.map (fun r => r.2) := List.mem_map.mpr ⟨q, hq, rfl⟩
  have hne2 : p.2 ≠ q.2 := by rw [← hp2, ← hq2]; exact hne
  have hdpos := ols_denominator_pos (pairs.map (fun r => r.2)) p.2 q.2 hx1 hy1 hne2
  rw [List.length_map, List.map_map] at hdpos
  have hconv : pairs.map ((fun v => v ^ 2) ∘ (fun r : ℝ × ℝ => r.2))
      = pairs.map (fun r : ℝ × ℝ => r.2 * r.2) :=
    List.map_congr_left fun r _ => by simp [Function.comp, pow_two]
  rw [hconv, pow_two] at hdpos
  have hdne : (pairs.length : ℝ) * (pairs.map (fun r => r.2 * r.2)).sum
      - (pairs.map (fun r => r.2)).sum * (pairs.map (fun r => r.2)).sum ≠ 0 :=
    hdpos.ne'
  rw [if_neg (by
    intro hzero
    exact hdne (by rw [← hXY] at hzero ⊢; exact hzero))]
  rw [hXYQ, hXY, div_self hdne, one_mul, sub_self, zero_div]

lemma residualAt_self (S : List JSNum) (i : ℕ) :
    residualAt S S { alpha := 0, beta := 1, valid := true } i = none ∨
    residualAt S S { alpha := 0, beta := 1, valid := true } i = some 0 := by
  unfold residualAt
  cases hA : S[i]? with
  | none => left; rfl
  | some v =>
    cases v with
    | fin a =>
      right
      simp only []
      rw [show a - ((0:ℝ) + 1 * a) = 0 by ring]
    | nan => left; rfl
    | posInf => left; rfl
    | negInf => left; rfl

lemma zscoreAt_none_of_zero_residuals (residuals : ℕ → Option ℝ)
    (hres : ∀ j, residuals j = none ∨ residuals j = some 0) (safeWindow i : ℕ) :
    zscoreAt residuals safeWindow i = none := by
  unfold zscoreAt
  dsimp only
  split
  · rfl
  · cases hcur : residuals i with
    | none => rfl
    | some r =>
      dsimp only
      have hr : r = 0 := by
        rcases hres i with hj | hj
        · rw [hcur] at hj; cases hj
        · rw [hcur] at hj; exact Option.some.inj hj
      set start := i - (safeWindow - 1) with hstart
      set slice := (List.range (i + 1 - start)).filterMap
        (fun k => residuals (start + k)) with hslice
      by_cases hlen : slice.length < 2
      · rw [if_pos hlen]
      · rw [if_neg hlen]
        have hall : ∀ v ∈ slice, v = 0 := by
          intro v hv
          rcases List.mem_filterMap.mp hv with ⟨k, _, hk⟩
          rcases hres (start + k) with hj | hj
          · rw [hj] at hk; cases hk
          · rw [hj] at hk; exact (Option.some.inj hk).symm
        have hsum : slice.sum = 0 := List.sum_eq_zero hall
        have hvar : (slice.map
            (fun v => (v - slice.sum / (slice.length : ℝ)) ^ 2)).sum = 0 := by
          refine List.sum_eq_zero fun w hw => ?_
          rcases List.mem_map.mp hw with ⟨v, hv, rfl⟩
          rw [hall v hv, hsum, zero_div, sub_zero]
          norm_num
        rw [hvar, zero_div, Real.sqrt_zero, if_pos rfl]

lemma coint_self_all_none (S : List JSNum) (window : ℝ)
    (h : ∃ p ∈ validPairs S S, ∃ q ∈ validPairs S S, p.1 ≠ q.1) :
    computeCointegrationZScore S S window = List.replicate S.length none := by
  unfold computeCointegrationZScore
  dsimp only
  rw [min_self]
  split
  · rfl
  · rw [performLinearRegression_self S h, if_neg (by simp)]
    rw [List.eq_replicate_iff]
    refine ⟨by simp, fun b hb => ?_⟩
    rcases List.mem_map.mp hb with ⟨i, _, rfl⟩
    exact zscoreAt_none_of_zero_residuals _ (residualAt_self S) _ i

/-- C7 counterexample: for the constant series `S = [5, 5]` (two finite
values), the self-regression denominator is zero, so the code falls back
to slope 0 and intercept 5 - not slope 1 and intercept 0 as claimed. -/
theorem coint_self_constant_counterexample :
    (validPairs [JSNum.fin 5, JSNum.fin 5] [JSNum.fin 5, JSNum.fin 5]).length = 2 ∧
    (performLinearRegression [JSNum.fin 5, JSNum.fin 5] [JSNum.fin 5, JSNum.fin 5]).beta
      = 0 ∧
    (performLinearRegression [JSNum.fin 5, JSNum.fin 5] [JSNum.fin 5, JSNum.fin 5]).alpha
      = 5 ∧
    (performLinearRegression [JSNum.fin 5, JSNum.fin 5] [JSNum.fin 5, JSNum.fin 5]).beta
      ≠ 1 := by
  have hp : validPairs [JSNum.fin 5, JSNum.fin 5] [JSNum.fin 5, JSNum.fin 5]
      = [((5:ℝ), (5:ℝ)), ((5:ℝ), (5:ℝ))] := rfl
  have hreg : performLinearRegression [JSNum.fin 5, JSNum.fin 5] [JSNum.fin 5, JSNum.fin 5]
      = { alpha := 5, beta := 0, valid := true } := by
    unfold performLinearRegression
    dsimp only
    rw [hp]
    rw [if_neg (by norm_num)]
    rw [if_pos (by
      simp only [List.map_cons, List.map_nil, List.sum_cons, List.sum_nil,
        List.length_cons, List.length_nil]
      norm_num)]
    simp only [List.map_cons, List.map_nil, List.sum_cons, List.sum_nil,
      List.length_cons, List.length_nil, Regression.mk.injEq]
    norm_num
  refine ⟨by rw [hp]; rfl, by rw [hreg], by rw [hreg], by rw [hreg]; norm_num⟩

/-- C7 (amended): when the finite values of `S` are not all equal (two
valid pairs differ), regressing `S` against itself fits slope 1 and
intercept 0, every defined residual is exactly 0, and every output
position of `computeCointegrationZScore S S window` is undefined (never
a division-by-zero value); for a constant series the code instead falls
back to slope 0 and intercept equal to the mean. -/
theorem coint_self_theorem (S : List JSNum) (window : ℝ)
    (h : ∃ p ∈ validPairs S S, ∃ q ∈ validPairs S S, p.1 ≠ q.1) :
    performLinearRegression S S = { alpha := 0, beta := 1, valid := true } ∧
    (∀ i : ℕ, residualAt S S (performLinearRegression S S) i = none ∨
      residualAt S S (performLinearRegression S S) i = some 0) ∧
    computeCointegrationZScore S S window = List.replicate S.length none := by
  refine ⟨performLinearRegression_self S h, fun i => ?_, coint_self_all_none S window h⟩
  rw [performLinearRegression_self S h]
  exact residualAt_self S i

/-- Witness for the amended C7 at `S = [1, 2]`, `window = 2`. -/
theorem coint_self_theorem_witness :
    performLinearRegression [JSNum.fin 1, JSNum.fin 2] [JSNum.fin 1, JSNum.fin 2]
      = { alpha := 0, beta := 1, valid := true } ∧
    computeCointegrationZScore [JSNum.fin 1, JSNum.fin 2] [JSNum.fin 1, JSNum.fin 2] 2
      = [none, none] := by
  have hvp : validPairs [JSNum.fin 1, JSNum.fin 2] [JSNum.fin 1, JSNum.fin 2]
      = [((1:ℝ), (1:ℝ)), ((2:ℝ), (2:ℝ))] := rfl
  have hh : ∃ p ∈ validPairs [JSNum.fin 1, JSNum.fin 2] [JSNum.fin 1, JSNum.fin 2],
      ∃ q ∈ validPairs [JSNum.fin 1, JSNum.fin 2] [JSNum.fin 1, JSNum.fin 2],
      p.1 ≠ q.1 := by
    refine ⟨((1:ℝ), (1:ℝ)), ?_, ((2:ℝ), (2:ℝ)), ?_, by norm_num⟩
    · rw [hvp]; simp
    · rw [hvp]; simp
  have hthm := coint_self_theorem [JSNum.fin 1, JSNum.fin 2] 2 hh
  exact ⟨hthm.1, hthm.2.2⟩

end TSCorr
